import Mathlib

/-!
Verification of the broken-word repair engine (`pdf_text_cleanup.py`).

A shallow embedding of the dictionary-backed broken-word repair engine:
ligature normalization, token segmentation, the merge decision engine and
the per-line sliding-window scanner, together with proofs of the claimed
properties.

Texts are modelled as `List Char` (Python strings are sequences of code
points).  The process-wide dictionary (`get_dictionary`) is modelled as a
`Lexicon` parameter holding the loaded word set; membership follows
`is_word`, which lowercases the probe.  The Python `str.isalpha` test is
modelled on the ASCII letter range (the engine targets extracted English
text), and `str.lower` by per-character `Char.toLower`.
-/

/-- Models Python `str.isalpha` on a single character, restricted to the
ASCII letters the repair engine works over. -/
def isalpha (c : Char) : Bool :=
  ('A' ≤ c && c ≤ 'Z') || ('a' ≤ c && c ≤ 'z')

/-- Models Python `str.lower`: per-character lowercasing. -/
def lower (s : List Char) : List Char :=
  s.map Char.toLower

/-- The loaded dictionary word set (`get_dictionary()` in the source):
an in-memory set of words, here listed explicitly.  An empty `words`
models the degraded mode in which every source failed to load. -/
structure Lexicon where
  words : List (List Char)

/-- `is_word` from the source: `token.lower() in get_dictionary()`. -/
def is_word (lex : Lexicon) (token : List Char) : Bool :=
  lex.words.contains (lower token)

/-- `_LIGATURE_MAP` from the source, as a per-character lookup: the
Unicode ligature code points U+FB00..U+FB06 and their ASCII expansions. -/
def ligature_expansion (c : Char) : Option (List Char) :=
  if c = 'ﬀ' then some ['f', 'f']
  else if c = 'ﬁ' then some ['f', 'i']
  else if c = 'ﬂ' then some ['f', 'l']
  else if c = 'ﬃ' then some ['f', 'f', 'i']
  else if c = 'ﬄ' then some ['f', 'f', 'l']
  else if c = 'ﬅ' then some ['s', 't']
  else if c = 'ﬆ' then some ['s', 't']
  else none

/-- One character after ligature replacement: its expansion when it is a
ligature code point, itself otherwise. -/
def expand_char (c : Char) : List Char :=
  (ligature_expansion c).getD [c]

/-- `normalize_ligatures` from the source: the regex substitution replaces
every occurrence of a ligature code point (each pattern is a single
character) by its ASCII expansion and leaves all other characters
untouched. -/
def normalize_ligatures : List Char → List Char
  | [] => []
  | c :: cs => expand_char c ++ normalize_ligatures cs

/-- `_strip_punctuation` from the source: scan forward from the start
while characters are non-alphabetic (`leading`), backward from the end
while characters are non-alphabetic (`trailing`); everything between is
the `core`. -/
def strip_punctuation (token : List Char) : List Char × List Char × List Char :=
  let lead := token.takeWhile (fun c => !(isalpha c))
  let rest := token.dropWhile (fun c => !(isalpha c))
  let trail := (rest.reverse.takeWhile (fun c => !(isalpha c))).reverse
  let core := (rest.reverse.dropWhile (fun c => !(isalpha c))).reverse
  (lead, core, trail)

/-- `_is_fragment` from the source: a non-empty all-alphabetic core. -/
def is_fragment (core : List Char) : Bool :=
  !(core.isEmpty) && core.all isalpha

/-- `_should_merge` from the source: the concatenation must be a
recognized word, at least one fragment must be short (≤ `max_short`), and
not all fragments may independently be valid words. -/
def should_merge (lex : Lexicon) (fragments : List (List Char)) (max_short : Nat) : Bool :=
  let candidate := fragments.flatten
  if !(is_word lex candidate) then false
  else
    (fragments.any fun f => f.length ≤ max_short)
      && !(fragments.all fun f => is_word lex f)

/-- `_LIGATURE_ENDINGS` from the source. -/
def LIGATURE_ENDINGS : List (List Char) :=
  [['f', 'i'], ['f', 'l'], ['f', 'f'], ['f', 'f', 'i'],
   ['f', 'f', 'l'], ['f', 't'], ['c', 't'], ['s', 't']]

/-- `_LIGATURE_STANDALONE` from the source. -/
def LIGATURE_STANDALONE : List (List Char) :=
  [['f', 'i'], ['f', 'l'], ['f', 'f'], ['f', 'f', 'i'],
   ['f', 'f', 'l'], ['s', 't']]

/-- `_has_ligature_boundary` from the source: the first core, lowercased,
ends with one of the ligature endings (the second core is not
inspected). -/
def has_ligature_boundary (core_a core_b : List Char) : Bool :=
  LIGATURE_ENDINGS.any fun lig => lig.isSuffixOf (lower core_a)

/-- `_is_ligature_fragment` from the source: the core, lowercased, is
exactly one of the standalone ligature fragments. -/
def is_ligature_fragment (core : List Char) : Bool :=
  LIGATURE_STANDALONE.contains (lower core)

/-- The 2-token window of `_clean_line` (source lines 360-391): the first
token may carry leading punctuation only, the second trailing punctuation
only; then the general short-fragment rule, the standalone-ligature
override and the ligature-boundary override are tried in that order.
Returns the merged token on success. -/
def try_pair_merge (lex : Lexicon) (tA tB : List Char) : Option (List Char) :=
  match strip_punctuation tA, strip_punctuation tB with
  | (preA, coreA, sufA), (preB, coreB, sufB) =>
    if is_fragment coreA && sufA.isEmpty && is_fragment coreB && preB.isEmpty then
      if should_merge lex [coreA, coreB] 3 then
        some (preA ++ (coreA ++ coreB) ++ sufB)
      else if is_ligature_fragment coreA && is_word lex (coreA ++ coreB) then
        some (preA ++ (coreA ++ coreB) ++ sufB)
      else if has_ligature_boundary coreA coreB
          && is_word lex (coreA ++ coreB) && !(is_word lex coreA) then
        some (preA ++ (coreA ++ coreB) ++ sufB)
      else none
    else none

/-- The 3-token window of `_clean_line` (source lines 343-357): only the
first token may carry leading punctuation and only the last trailing
punctuation; the general rule is applied with `max_short = 4`. -/
def try_triple_merge (lex : Lexicon) (tA tB tC : List Char) : Option (List Char) :=
  match strip_punctuation tA, strip_punctuation tB, strip_punctuation tC with
  | (preA, coreA, sufA), (preB, coreB, sufB), (preC, coreC, sufC) =>
    if is_fragment coreA && sufA.isEmpty
        && is_fragment coreB && preB.isEmpty && sufB.isEmpty
        && is_fragment coreC && preC.isEmpty
        && should_merge lex [coreA, coreB, coreC] 4 then
      some (preA ++ (coreA ++ coreB ++ coreC) ++ sufC)
    else none

/-- The token loop of `_clean_line`: at each position try the 3-token
window first, then the 2-token window, else emit the token unchanged;
a successful merge consumes its whole window. -/
def cleanTokens (lex : Lexicon) : List (List Char) → List (List Char)
  | [] => []
  | [t] => [t]
  | [t1, t2] =>
    match try_pair_merge lex t1 t2 with
    | some m => [m]
    | none => t1 :: cleanTokens lex [t2]
  | t1 :: t2 :: t3 :: rest =>
    match try_triple_merge lex t1 t2 t3 with
    | some m => m :: cleanTokens lex rest
    | none =>
      match try_pair_merge lex t1 t2 with
      | some m => m :: cleanTokens lex (t3 :: rest)
      | none => t1 :: cleanTokens lex (t2 :: t3 :: rest)

/-- Python `line.split(" ")`: split at every separator occurrence; `n`
separators yield `n + 1` pieces, empty pieces included. -/
def splitOnChar (sep : Char) : List Char → List (List Char)
  | [] => [[]]
  | c :: cs =>
    if c == sep then [] :: splitOnChar sep cs
    else
      match splitOnChar sep cs with
      | [] => [[c]]
      | p :: ps => (c :: p) :: ps

/-- Python `sep.join(pieces)`. -/
def joinSep (sep : Char) : List (List Char) → List Char
  | [] => []
  | [x] => x
  | x :: xs => x ++ sep :: joinSep sep xs

/-- `_clean_line` from the source: split on single spaces, run the token
loop, rejoin with single spaces. -/
def clean_line (lex : Lexicon) (line : List Char) : List Char :=
  joinSep ' ' (cleanTokens lex (splitOnChar ' ' line))

/-- `clean_broken_words` from the source: normalize ligatures first;
if the dictionary is empty return the (normalized) text, otherwise clean
each line independently and rejoin with newlines. -/
def clean_broken_words (lex : Lexicon) (text : List Char) : List Char :=
  let t := normalize_ligatures text
  if lex.words.isEmpty then t
  else joinSep '\n' ((splitOnChar '\n' t).map (clean_line lex))

/-! ## Helper lemmas: the token segmenter -/

/-- `strip_punctuation` unfolded to its scan components. -/
theorem strip_punctuation_eq (token : List Char) :
    strip_punctuation token =
      (token.takeWhile (fun c => !(isalpha c)),
       ((token.dropWhile (fun c => !(isalpha c))).reverse.dropWhile
          (fun c => !(isalpha c))).reverse,
       ((token.dropWhile (fun c => !(isalpha c))).reverse.takeWhile
          (fun c => !(isalpha c))).reverse) := rfl

theorem takeWhile_eq_nil_of_all (p : Char → Bool) (l : List Char)
    (h : ∀ c ∈ l, p c = false) : l.takeWhile p = [] := by
  cases l with
  | nil => rfl
  | cons c cs => simp [List.takeWhile_cons, h c (List.mem_cons_self c cs)]

theorem dropWhile_eq_self_of_all (p : Char → Bool) (l : List Char)
    (h : ∀ c ∈ l, p c = false) : l.dropWhile p = l := by
  cases l with
  | nil => rfl
  | cons c cs => simp [List.dropWhile_cons, h c (List.mem_cons_self c cs)]

theorem head_dropWhile_all (p : Char → Bool) (l : List Char) :
    ((l.dropWhile p).head?.all fun a => !(p a)) = true := by
  induction l with
  | nil => rfl
  | cons c cs ih =>
    rw [List.dropWhile_cons]
    by_cases h : p c = true
    · simpa [h] using ih
    · simp [h]

/-- The segmenter reassembles: `leading ++ core ++ trailing = token`. -/
theorem strip_punctuation_append (token : List Char) :
    (strip_punctuation token).1
      ++ ((strip_punctuation token).2.1 ++ (strip_punctuation token).2.2) = token := by
  rw [strip_punctuation_eq]
  rw [← List.reverse_append, List.takeWhile_append_dropWhile, List.reverse_reverse,
      List.takeWhile_append_dropWhile]

/-- The first character of the core, when present, is alphabetic. -/
theorem strip_punctuation_core_head (token : List Char) :
    ((strip_punctuation token).2.1.head?.all isalpha) = true := by
  rw [strip_punctuation_eq]
  have hrest := head_dropWhile_all (fun c => !(isalpha c)) token
  have hsplit :
      ((token.dropWhile (fun c => !(isalpha c))).reverse.dropWhile
          (fun c => !(isalpha c))).reverse
        ++ ((token.dropWhile (fun c => !(isalpha c))).reverse.takeWhile
              (fun c => !(isalpha c))).reverse
        = token.dropWhile (fun c => !(isalpha c)) := by
    rw [← List.reverse_append, List.takeWhile_append_dropWhile, List.reverse_reverse]
  cases hc : ((token.dropWhile (fun c => !(isalpha c))).reverse.dropWhile
      (fun c => !(isalpha c))).reverse with
  | nil => rfl
  | cons a core' =>
    rw [hc] at hsplit
    rw [← hsplit] at hrest
    simpa using hrest

/-- The last character of the core, when present, is alphabetic. -/
theorem strip_punctuation_core_last (token : List Char) :
    ((strip_punctuation token).2.1.getLast?.all isalpha) = true := by
  rw [strip_punctuation_eq]
  rw [← List.head?_reverse, List.reverse_reverse]
  have := head_dropWhile_all (fun c => !(isalpha c))
    (token.dropWhile (fun c => !(isalpha c))).reverse
  simpa using this

/-- An all-alphabetic non-empty token is pure core. -/
theorem strip_punctuation_fragment (t : List Char) (h : is_fragment t = true) :
    strip_punctuation t = ([], t, []) := by
  have halpha : ∀ c ∈ t, isalpha c = true := by
    simp only [is_fragment, Bool.and_eq_true, List.all_eq_true] at h
    exact h.2
  have hp : ∀ c ∈ t, (!(isalpha c)) = false := fun c hc => by simp [halpha c hc]
  have hpr : ∀ c ∈ t.reverse, (!(isalpha c)) = false :=
    fun c hc => hp c (List.mem_reverse.mp hc)
  rw [strip_punctuation_eq]
  rw [takeWhile_eq_nil_of_all _ _ hp, dropWhile_eq_self_of_all _ _ hp,
      takeWhile_eq_nil_of_all _ _ hpr, dropWhile_eq_self_of_all _ _ hpr]
  simp

/-! ## Helper lemmas: the merge windows -/

/-- A successful 2-token merge emits exactly the concatenation of the two
consumed tokens. -/
theorem try_pair_merge_concat (lex : Lexicon) (tA tB m : List Char)
    (h : try_pair_merge lex tA tB = some m) : m = tA ++ tB := by
  have hA := strip_punctuation_append tA
  have hB := strip_punctuation_append tB
  rcases hsA : strip_punctuation tA with ⟨preA, coreA, sufA⟩
  rcases hsB : strip_punctuation tB with ⟨preB, coreB, sufB⟩
  rw [hsA] at hA
  rw [hsB] at hB
  rw [try_pair_merge, hsA, hsB] at h
  simp only at hA hB h
  split_ifs at h with h1 h2 h3 h4
  all_goals simp only [Bool.and_eq_true, List.isEmpty_iff] at h1
  all_goals obtain ⟨⟨⟨hfa, hsa⟩, hfb⟩, hpb⟩ := h1
  all_goals injection h with hm
  all_goals subst hm hsa hpb
  all_goals subst hA hB
  all_goals simp

/-- A successful 3-token merge emits exactly the concatenation of the
three consumed tokens. -/
theorem try_triple_merge_concat (lex : Lexicon) (tA tB tC m : List Char)
    (h : try_triple_merge lex tA tB tC = some m) : m = tA ++ tB ++ tC := by
  have hA := strip_punctuation_append tA
  have hB := strip_punctuation_append tB
  have hC := strip_punctuation_append tC
  rcases hsA : strip_punctuation tA with ⟨preA, coreA, sufA⟩
  rcases hsB : strip_punctuation tB with ⟨preB, coreB, sufB⟩
  rcases hsC : strip_punctuation tC with ⟨preC, coreC, sufC⟩
  rw [hsA] at hA
  rw [hsB] at hB
  rw [hsC] at hC
  rw [try_triple_merge, hsA, hsB, hsC] at h
  simp only at hA hB hC h
  split_ifs at h with h1
  simp only [Bool.and_eq_true, List.isEmpty_iff] at h1
  obtain ⟨⟨⟨⟨⟨⟨hfa, hsa⟩, hfb⟩, hpb⟩, hsb⟩, hfc⟩, hpc⟩ := h1.1
  injection h with hm
  subst hm hsa hpb hsb hpc
  subst hA hB hC
  simp

/-- The token loop only deletes the spaces between merged tokens: its
output flattens to the flattening of its input. -/
theorem cleanTokens_flatten (lex : Lexicon) :
    (ts : List (List Char)) → (cleanTokens lex ts).flatten = ts.flatten
  | [] => rfl
  | [t] => rfl
  | [t1, t2] => by
    cases h : try_pair_merge lex t1 t2 with
    | some m =>
      have hm := try_pair_merge_concat lex t1 t2 m h
      simp [cleanTokens, h, hm]
    | none => simp [cleanTokens, h]
  | t1 :: t2 :: t3 :: rest => by
    cases h3 : try_triple_merge lex t1 t2 t3 with
    | some m =>
      have hm := try_triple_merge_concat lex t1 t2 t3 m h3
      have ih := cleanTokens_flatten lex rest
      simp [cleanTokens, h3, hm, ih, List.append_assoc]
    | none =>
      cases h2 : try_pair_merge lex t1 t2 with
      | some m =>
        have hm := try_pair_merge_concat lex t1 t2 m h2
        have ih := cleanTokens_flatten lex (t3 :: rest)
        simp [cleanTokens, h3, h2, hm, ih, List.append_assoc]
      | none =>
        have ih := cleanTokens_flatten lex (t2 :: t3 :: rest)
        simp [cleanTokens, h3, h2, ih]

/-! ## Helper lemmas: splitting and joining -/

theorem splitOnChar_ne_nil (sep : Char) (l : List Char) :
    splitOnChar sep l ≠ [] := by
  cases l with
  | nil => simp [splitOnChar]
  | cons c cs =>
    rw [splitOnChar]
    by_cases h : (c == sep) = true
    · simp [h]
    · simp only [h]
      cases hs : splitOnChar sep cs <;> simp

theorem joinSep_cons_cons (sep : Char) (x y : List Char) (ys : List (List Char)) :
    joinSep sep (x :: y :: ys) = x ++ sep :: joinSep sep (y :: ys) := rfl

/-- Splitting and rejoining on the same separator is the identity. -/
theorem joinSep_splitOnChar (sep : Char) (l : List Char) :
    joinSep sep (splitOnChar sep l) = l := by
  induction l with
  | nil => rfl
  | cons c cs ih =>
    rw [splitOnChar]
    by_cases h : (c == sep) = true
    · rw [if_pos h]
      have hsep : c = sep := by simpa [beq_iff_eq] using h
      cases hs : splitOnChar sep cs with
      | nil => exact absurd hs (splitOnChar_ne_nil sep cs)
      | cons p ps =>
        rw [hs] at ih
        rw [joinSep_cons_cons, ih, hsep]
        rfl
    · rw [if_neg h]
      cases hs : splitOnChar sep cs with
      | nil => exact absurd hs (splitOnChar_ne_nil sep cs)
      | cons p ps =>
        rw [hs] at ih
        show joinSep sep ((c :: p) :: ps) = c :: cs
        cases ps with
        | nil => simpa [joinSep] using ih
        | cons q qs =>
          rw [joinSep_cons_cons] at ih
          rw [joinSep_cons_cons, ← ih]
          rfl

/-- No piece produced by the splitter contains the separator. -/
theorem splitOnChar_pieces_no_sep (sep : Char) (l : List Char) :
    ∀ p ∈ splitOnChar sep l, sep ∉ p := by
  induction l with
  | nil => simp [splitOnChar]
  | cons c cs ih =>
    rw [splitOnChar]
    by_cases h : (c == sep) = true
    · simp only [h, if_true]
      intro p hp
      rcases List.mem_cons.mp hp with h1 | h1
      · subst h1; simp
      · exact ih p h1
    · simp only [h, if_false]
      cases hs : splitOnChar sep cs with
      | nil => exact absurd hs (splitOnChar_ne_nil sep cs)
      | cons p ps =>
        have hp : sep ∉ p := ih p (by rw [hs]; exact List.mem_cons_self p ps)
        intro q hq
        rcases List.mem_cons.mp hq with h1 | h1
        · subst h1
          intro hmem
          rcases List.mem_cons.mp hmem with h2 | h2
          · subst h2; simp at h
          · exact hp h2
        · exact ih q (by rw [hs]; exact List.mem_cons.mpr (Or.inr h1))

/-- Splitting a list free of the separator yields a single piece. -/
theorem splitOnChar_single (sep : Char) (l : List Char)
    (h : ∀ c ∈ l, (c == sep) = false) : splitOnChar sep l = [l] := by
  induction l with
  | nil => rfl
  | cons c cs ih =>
    have ihcs := ih (fun d hd => h d (List.mem_cons.mpr (Or.inr hd)))
    rw [splitOnChar, ihcs]
    simp [h c (List.mem_cons_self c cs)]

/-- Splitting peels off a separator-free prefix before a separator. -/
theorem splitOnChar_append (sep : Char) (a b : List Char)
    (h : ∀ c ∈ a, (c == sep) = false) :
    splitOnChar sep (a ++ sep :: b) = a :: splitOnChar sep b := by
  induction a with
  | nil => simp [splitOnChar]
  | cons c a2 ih =>
    have iha := ih (fun d hd => h d (List.mem_cons.mpr (Or.inr hd)))
    rw [List.cons_append, splitOnChar, iha]
    simp [h c (List.mem_cons_self c a2)]

/-! ## Helper lemmas: alphabetic characters and ligature normalization -/

theorem isalpha_ne (c d : Char) (h : isalpha c = true) (hd : isalpha d = false) :
    (c == d) = false := by
  by_cases he : c = d
  · subst he; rw [h] at hd; cases hd
  · simp [he]

theorem isalpha_no_ligature (c : Char) (h : isalpha c = true) :
    ligature_expansion c = none := by
  rw [ligature_expansion]
  split_ifs with h1 h2 h3 h4 h5 h6 h7
  · subst h1; exact absurd h (by decide)
  · subst h2; exact absurd h (by decide)
  · subst h3; exact absurd h (by decide)
  · subst h4; exact absurd h (by decide)
  · subst h5; exact absurd h (by decide)
  · subst h6; exact absurd h (by decide)
  · subst h7; exact absurd h (by decide)
  · rfl

/-- Normalization fixes any text free of ligature code points. -/
theorem normalize_ligatures_id (l : List Char)
    (h : ∀ c ∈ l, ligature_expansion c = none) : normalize_ligatures l = l := by
  induction l with
  | nil => rfl
  | cons c cs ih =>
    rw [normalize_ligatures, expand_char, h c (List.mem_cons_self c cs),
        ih (fun d hd => h d (List.mem_cons.mpr (Or.inr hd)))]
    rfl

/-! ## Helper lemmas: the whole pipeline on simple inputs -/

theorem words_isEmpty_false_of_ne (lex : Lexicon) (h : lex.words ≠ []) :
    lex.words.isEmpty = false := by
  cases hl : lex.words.isEmpty
  · rfl
  · exact absurd (List.isEmpty_iff.mp hl) h

/-- On a newline-free, ligature-free text with a loaded dictionary,
`clean_broken_words` is exactly `_clean_line`. -/
theorem clean_broken_words_single_line (lex : Lexicon) (text : List Char)
    (hlex : lex.words.isEmpty = false)
    (hclean : ∀ c ∈ text, ligature_expansion c = none ∧ (c == '\n') = false) :
    clean_broken_words lex text = clean_line lex text := by
  simp only [clean_broken_words, hlex, Bool.false_eq_true, if_false]
  rw [normalize_ligatures_id text (fun c hc => (hclean c hc).1),
      splitOnChar_single '\n' text (fun c hc => (hclean c hc).2)]
  rfl

/-- `clean_broken_words` on two space-separated alphabetic fragments is
the token loop on the two-token list. -/
theorem clean_broken_words_pair (lex : Lexicon) (a b : List Char)
    (hlex : lex.words.isEmpty = false)
    (ha : is_fragment a = true) (hb : is_fragment b = true) :
    clean_broken_words lex (a ++ ' ' :: b) = joinSep ' ' (cleanTokens lex [a, b]) := by
  have hmema : ∀ c ∈ a, isalpha c = true := by
    simp only [is_fragment, Bool.and_eq_true, List.all_eq_true] at ha
    exact ha.2
  have hmemb : ∀ c ∈ b, isalpha c = true := by
    simp only [is_fragment, Bool.and_eq_true, List.all_eq_true] at hb
    exact hb.2
  have hspecial : ∀ c ∈ a ++ ' ' :: b,
      ligature_expansion c = none ∧ (c == '\n') = false := by
    intro c hc
    rcases List.mem_append.mp hc with h1 | h1
    · exact ⟨isalpha_no_ligature c (hmema c h1),
        isalpha_ne c '\n' (hmema c h1) (by decide)⟩
    · rcases List.mem_cons.mp h1 with h2 | h2
      · subst h2; exact ⟨rfl, by decide⟩
      · exact ⟨isalpha_no_ligature c (hmemb c h2),
          isalpha_ne c '\n' (hmemb c h2) (by decide)⟩
  rw [clean_broken_words_single_line lex _ hlex hspecial, clean_line,
      splitOnChar_append ' ' a b (fun c hc => isalpha_ne c ' ' (hmema c hc) (by decide)),
      splitOnChar_single ' ' b (fun c hc => isalpha_ne c ' ' (hmemb c hc) (by decide))]

/-! ## Helper lemmas: idempotence machinery for normalization -/

theorem normalize_ligatures_append (a b : List Char) :
    normalize_ligatures (a ++ b) = normalize_ligatures a ++ normalize_ligatures b := by
  induction a with
  | nil => rfl
  | cons c cs ih =>
    rw [List.cons_append, normalize_ligatures, normalize_ligatures, ih, List.append_assoc]

theorem normalize_expand_char (c : Char) :
    normalize_ligatures (expand_char c) = expand_char c := by
  by_cases h1 : c = 'ﬀ'
  · subst h1; decide
  by_cases h2 : c = 'ﬁ'
  · subst h2; decide
  by_cases h3 : c = 'ﬂ'
  · subst h3; decide
  by_cases h4 : c = 'ﬃ'
  · subst h4; decide
  by_cases h5 : c = 'ﬄ'
  · subst h5; decide
  by_cases h6 : c = 'ﬅ'
  · subst h6; decide
  by_cases h7 : c = 'ﬆ'
  · subst h7; decide
  have hnone : ligature_expansion c = none := by
    rw [ligature_expansion]
    simp [h1, h2, h3, h4, h5, h6, h7]
  simp [expand_char, hnone, normalize_ligatures]

/-! ## Helper lemmas: joining, filtering, counting -/

theorem filter_joinSep (p : Char → Bool) (sep : Char) (hp : p sep = false) :
    (xs : List (List Char)) → (joinSep sep xs).filter p = xs.flatten.filter p
  | [] => rfl
  | [x] => by simp [joinSep]
  | x :: y :: ys => by
    have ih := filter_joinSep p sep hp (y :: ys)
    rw [joinSep_cons_cons]
    simp only [List.filter_append, List.filter_cons, hp, List.flatten_cons]
    rw [ih]
    simp [List.filter_append]

theorem mem_joinSep (sep c : Char) :
    (xs : List (List Char)) → c ∈ joinSep sep xs → c = sep ∨ c ∈ xs.flatten
  | [] => by simp [joinSep]
  | [x] => by
    intro h
    right
    simpa using h
  | x :: y :: ys => by
    intro h
    rw [joinSep_cons_cons] at h
    rcases List.mem_append.mp h with h1 | h1
    · right
      exact List.mem_flatten.mpr ⟨x, List.mem_cons_self x (y :: ys), h1⟩
    · rcases List.mem_cons.mp h1 with h2 | h2
      · left; exact h2
      · rcases mem_joinSep sep c (y :: ys) h2 with h3 | h3
        · left; exact h3
        · right
          rcases List.mem_flatten.mp h3 with ⟨s, hs, hcs⟩
          exact List.mem_flatten.mpr ⟨s, List.mem_cons.mpr (Or.inr hs), hcs⟩

theorem mem_flatten_joinSep (sep c : Char) :
    (xs : List (List Char)) → c ∈ xs.flatten → c ∈ joinSep sep xs
  | [] => by simp
  | [x] => by
    intro h
    simpa using h
  | x :: y :: ys => by
    intro h
    rw [joinSep_cons_cons]
    rcases List.mem_flatten.mp h with ⟨s, hs, hcs⟩
    rcases List.mem_cons.mp hs with h1 | h1
    · subst h1
      exact List.mem_append.mpr (Or.inl hcs)
    · refine List.mem_append.mpr (Or.inr (List.mem_cons.mpr (Or.inr ?_)))
      exact mem_flatten_joinSep sep c (y :: ys) (List.mem_flatten.mpr ⟨s, h1, hcs⟩)

theorem count_joinSep_sep (sep : Char) :
    (ps : List (List Char)) → (∀ p ∈ ps, sep ∉ p) →
      (joinSep sep ps).count sep = ps.length - 1
  | [], _ => rfl
  | [x], h => by
    simp [joinSep, List.count_eq_zero.mpr (h x (List.mem_cons_self x []))]
  | x :: y :: ys, h => by
    have ih := count_joinSep_sep sep (y :: ys)
      (fun p hp => h p (List.mem_cons.mpr (Or.inr hp)))
    rw [joinSep_cons_cons, List.count_append, List.count_cons_self, ih,
        List.count_eq_zero.mpr (h x (List.mem_cons_self x (y :: ys)))]
    simp

theorem count_expand_char (c : Char) :
    (expand_char c).count '\n' = ([c] : List Char).count '\n' := by
  by_cases h1 : c = 'ﬀ'
  · subst h1; decide
  by_cases h2 : c = 'ﬁ'
  · subst h2; decide
  by_cases h3 : c = 'ﬂ'
  · subst h3; decide
  by_cases h4 : c = 'ﬃ'
  · subst h4; decide
  by_cases h5 : c = 'ﬄ'
  · subst h5; decide
  by_cases h6 : c = 'ﬅ'
  · subst h6; decide
  by_cases h7 : c = 'ﬆ'
  · subst h7; decide
  have hnone : ligature_expansion c = none := by
    rw [ligature_expansion]
    simp [h1, h2, h3, h4, h5, h6, h7]
  rw [expand_char, hnone]
  rfl

theorem count_normalize_newline (l : List Char) :
    (normalize_ligatures l).count '\n' = l.count '\n' := by
  induction l with
  | nil => rfl
  | cons c cs ih =>
    have hsingle : c :: cs = [c] ++ cs := rfl
    rw [normalize_ligatures, List.count_append, ih, hsingle, List.count_append,
        count_expand_char]

/-! ## Helper lemmas: merge decisions on pure fragments -/

/-- A standalone ligature fragment whose concatenation is a recognized
word always merges in the 2-token window. -/
theorem try_pair_merge_ligature_standalone (lex : Lexicon) (a b : List Char)
    (ha : is_fragment a = true) (hb : is_fragment b = true)
    (hlig : is_ligature_fragment a = true)
    (hw : is_word lex (a ++ b) = true) :
    try_pair_merge lex a b = some (a ++ b) := by
  rw [try_pair_merge, strip_punctuation_fragment a ha, strip_punctuation_fragment b hb]
  by_cases hgen : should_merge lex [a, b] 3 = true
  · simp [ha, hb, hgen]
  · rw [Bool.not_eq_true] at hgen
    simp [ha, hb, hgen, hlig, hw]

/-- The ligature-boundary override: when the general rule fails but the
first fragment ends in a ligature pattern, the concatenation is a word
and the first fragment is not, the 2-token window still merges. -/
theorem try_pair_merge_boundary (lex : Lexicon) (a b : List Char)
    (ha : is_fragment a = true) (hb : is_fragment b = true)
    (hgen : should_merge lex [a, b] 3 = false)
    (hbnd : has_ligature_boundary a b = true)
    (hw : is_word lex (a ++ b) = true)
    (hna : is_word lex a = false) :
    try_pair_merge lex a b = some (a ++ b) := by
  rw [try_pair_merge, strip_punctuation_fragment a ha, strip_punctuation_fragment b hb]
  by_cases hlig : is_ligature_fragment a = true
  · simp [ha, hb, hgen, hlig, hw]
  · rw [Bool.not_eq_true] at hlig
    simp [ha, hb, hgen, hlig, hbnd, hw, hna]

/-- Two independently recognized words, the first not a standalone
ligature fragment, never merge in the 2-token window. -/
theorem try_pair_merge_real_words (lex : Lexicon) (a b : List Char)
    (ha : is_fragment a = true) (hb : is_fragment b = true)
    (hwa : is_word lex a = true) (hwb : is_word lex b = true)
    (hstand : is_ligature_fragment a = false) :
    try_pair_merge lex a b = none := by
  have hgen : should_merge lex [a, b] 3 = false := by
    simp [should_merge, hwa, hwb]
  rw [try_pair_merge, strip_punctuation_fragment a ha, strip_punctuation_fragment b hb]
  simp [ha, hb, hgen, hstand, hwa]

/-- The 3-token window fires whenever its punctuation constraints and the
general rule at `max_short = 4` are satisfied. -/
theorem try_triple_merge_fires (lex : Lexicon)
    (tA tB tC preA coreA coreB preC2 coreC sufC : List Char)
    (hA : strip_punctuation tA = (preA, coreA, []))
    (hB : strip_punctuation tB = ([], coreB, []))
    (hC : strip_punctuation tC = (preC2, coreC, sufC))
    (hpc : preC2 = [])
    (hfa : is_fragment coreA = true) (hfb : is_fragment coreB = true)
    (hfc : is_fragment coreC = true)
    (hm : should_merge lex [coreA, coreB, coreC] 4 = true) :
    try_triple_merge lex tA tB tC = some (preA ++ (coreA ++ coreB ++ coreC) ++ sufC) := by
  subst hpc
  rw [try_triple_merge, hA, hB, hC]
  simp [hfa, hfb, hfc, hm]

/-- The scanner gives the 3-token window priority: when it fires, its
merged token is emitted and all three tokens are consumed. -/
theorem cleanTokens_triple_step (lex : Lexicon)
    (tA tB tC : List Char) (rest : List (List Char)) (m : List Char)
    (h : try_triple_merge lex tA tB tC = some m) :
    cleanTokens lex (tA :: tB :: tC :: rest) = m :: cleanTokens lex rest := by
  rw [cleanTokens, h]

theorem clean_line_no_newline (lex : Lexicon) (p : List Char) (hp : '\n' ∉ p) :
    '\n' ∉ clean_line lex p := by
  intro hmem
  rw [clean_line] at hmem
  rcases mem_joinSep ' ' '\n' _ hmem with h1 | h1
  · exact absurd h1 (by decide)
  · rw [cleanTokens_flatten] at h1
    have h2 := mem_flatten_joinSep ' ' '\n' (splitOnChar ' ' p) h1
    rw [joinSep_splitOnChar] at h2
    exact hp h2

/-! ## Concrete lexicons and inputs used as witnesses -/

/-- Lexicon whose every word-list source failed to load. -/
def emptyLexicon : Lexicon := ⟨[]⟩

def lexC3 : Lexicon := ⟨["first".toList]⟩

def lexC4 : Lexicon := ⟨["fi".toList, "first".toList]⟩

def lexC5 : Lexicon := ⟨["profitable".toList]⟩

def inputC5 : List Char := "This was profi table for everyone.".toList

def lexC6 : Lexicon := ⟨["an".toList, "other".toList]⟩

def lexC7 : Lexicon := ⟨["difficult".toList]⟩

def inputC7 : List Char := "This is di ffi cult to read.".toList

/-- The space-stripped view of a text: every space character removed. -/
def removeSpaces (l : List Char) : List Char :=
  l.filter (fun c => !(c == ' '))

/-! ## The claims -/

/-- Claim C1 counterexample: with an empty Lexicon, `clean_broken_words`
does not return its input unchanged on every text: a ligature code point
is still normalized before the degraded-mode early return. -/
theorem c1_counterexample :
    clean_broken_words emptyLexicon ['ﬁ'] ≠ ['ﬁ'] := by decide

/-- Claim C1 amended: when the Lexicon failed to load (empty dictionary),
`clean_broken_words` returns its input with only ligature normalization
applied — the broken-word repair scan itself is skipped entirely, so any
text free of ligature code points comes back unchanged. -/
theorem c1_degraded_mode (lex : Lexicon) (text : List Char)
    (h : lex.words = []) :
    clean_broken_words lex text = normalize_ligatures text := by
  simp [clean_broken_words, h]

theorem c1_degraded_mode_witness :
    emptyLexicon.words = [] ∧
      clean_broken_words emptyLexicon ['ﬁ'] = normalize_ligatures ['ﬁ'] :=
  ⟨rfl, c1_degraded_mode emptyLexicon ['ﬁ'] rfl⟩

/-- Claim C2 counterexample: on the token `"a.b"` the core produced by
the segmenter is `"a.b"` itself, which is neither empty nor wholly
alphabetic — the claim fails on tokens with interior punctuation. -/
theorem c2_counterexample :
    ¬ ((strip_punctuation ['a', '.', 'b']).2.1 = [] ∨
        (strip_punctuation ['a', '.', 'b']).2.1.all isalpha = true) := by decide

/-- Claim C2 amended: `leading ++ core ++ trailing = token` always holds,
and the core, rather than being wholly alphabetic, is empty or begins and
ends with an alphabetic character (interior non-alphabetic characters
remain inside the core). -/
theorem c2_segmenter_invariant (token : List Char) :
    (strip_punctuation token).1
        ++ ((strip_punctuation token).2.1 ++ (strip_punctuation token).2.2) = token ∧
      ((strip_punctuation token).2.1.head?.all isalpha) = true ∧
      ((strip_punctuation token).2.1.getLast?.all isalpha) = true :=
  ⟨strip_punctuation_append token, strip_punctuation_core_head token,
    strip_punctuation_core_last token⟩

/-- Claim C3: for 2- or 3-fragment windows of alphabetic fragments, the
general merge decision returns true iff the lowercased concatenation is a
Lexicon member, at least one fragment is short enough, and not all
fragments are independently Lexicon members. -/
theorem c3_should_merge_iff (lex : Lexicon) (fragments : List (List Char))
    (max_short : Nat)
    (hlen : fragments.length = 2 ∨ fragments.length = 3)
    (hfrag : ∀ f ∈ fragments, is_fragment f = true) :
    should_merge lex fragments max_short = true ↔
      (is_word lex fragments.flatten = true ∧
        (∃ f ∈ fragments, f.length ≤ max_short) ∧
        ¬ (∀ f ∈ fragments, is_word lex f = true)) := by
  cases hw : is_word lex fragments.flatten
  · simp [should_merge, hw]
  · simp [should_merge, hw, List.any_eq_true, List.all_eq_true]

theorem c3_should_merge_iff_witness :
    ((["fi".toList, "rst".toList] : List (List Char)).length = 2 ∨
        (["fi".toList, "rst".toList] : List (List Char)).length = 3) ∧
      (∀ f ∈ (["fi".toList, "rst".toList] : List (List Char)), is_fragment f = true) ∧
      (should_merge lexC3 ["fi".toList, "rst".toList] 3 = true ↔
        (is_word lexC3 (["fi".toList, "rst".toList] : List (List Char)).flatten = true ∧
          (∃ f ∈ (["fi".toList, "rst".toList] : List (List Char)), f.length ≤ 3) ∧
          ¬ (∀ f ∈ (["fi".toList, "rst".toList] : List (List Char)),
              is_word lexC3 f = true))) :=
  ⟨Or.inl rfl, by decide,
    c3_should_merge_iff lexC3 ["fi".toList, "rst".toList] 3 (Or.inl rfl) (by decide)⟩

/-- Claim C4: a standalone ligature fragment (`fi, fl, ff, ffi, ffl, st`,
up to case) followed by an alphabetic suffix whose concatenation is a
Lexicon member is merged by `clean_broken_words` into the single token
`f ++ s`, regardless of fragment lengths and regardless of `f` itself
being a Lexicon member (the Lexicon being non-empty). -/
theorem c4_ligature_standalone (lex : Lexicon) (f s : List Char)
    (hlex : lex.words ≠ [])
    (hf : is_fragment f = true) (hsuf : is_fragment s = true)
    (hlig : is_ligature_fragment f = true)
    (hw : is_word lex (f ++ s) = true) :
    clean_broken_words lex (f ++ ' ' :: s) = f ++ s := by
  rw [clean_broken_words_pair lex f s (words_isEmpty_false_of_ne lex hlex) hf hsuf]
  have hp := try_pair_merge_ligature_standalone lex f s hf hsuf hlig hw
  simp [cleanTokens, hp, joinSep]

theorem c4_ligature_standalone_witness :
    lexC4.words ≠ [] ∧ is_fragment "fi".toList = true ∧
      is_fragment "rst".toList = true ∧
      is_ligature_fragment "fi".toList = true ∧
      is_word lexC4 ("fi".toList ++ "rst".toList) = true ∧
      is_word lexC4 "fi".toList = true ∧
      clean_broken_words lexC4 ("fi".toList ++ ' ' :: "rst".toList) =
        "fi".toList ++ "rst".toList :=
  ⟨by decide, by decide, by decide, by decide, by decide, by decide,
    c4_ligature_standalone lexC4 "fi".toList "rst".toList (by decide) (by decide)
      (by decide) (by decide) (by decide)⟩

/-- Claim C5: in a 2-fragment window where the general rule did not fire,
if the first fragment (lowercased) ends with a ligature ending, the
concatenation is a Lexicon member and the first fragment alone is not,
the scanner merges the two tokens; concretely,
`clean_broken_words "This was profi table for everyone."` contains
`"profitable"` and not `"profi table"`. -/
theorem c5_ligature_boundary :
    (∀ (lex : Lexicon) (a b : List Char),
        is_fragment a = true → is_fragment b = true →
        should_merge lex [a, b] 3 = false →
        has_ligature_boundary a b = true →
        is_word lex (a ++ b) = true →
        is_word lex a = false →
        try_pair_merge lex a b = some (a ++ b)) ∧
      List.IsInfix ("profitable".toList) (clean_broken_words lexC5 inputC5) ∧
      ¬ List.IsInfix ("profi table".toList) (clean_broken_words lexC5 inputC5) :=
  ⟨fun lex a b ha hb hgen hbnd hw hna =>
      try_pair_merge_boundary lex a b ha hb hgen hbnd hw hna,
    by decide, by decide⟩

theorem c5_ligature_boundary_witness :
    is_fragment "profi".toList = true ∧ is_fragment "table".toList = true ∧
      should_merge lexC5 ["profi".toList, "table".toList] 3 = false ∧
      has_ligature_boundary "profi".toList "table".toList = true ∧
      is_word lexC5 ("profi".toList ++ "table".toList) = true ∧
      is_word lexC5 "profi".toList = false ∧
      try_pair_merge lexC5 "profi".toList "table".toList =
        some ("profi".toList ++ "table".toList) :=
  ⟨by decide, by decide, by decide, by decide, by decide, by decide,
    c5_ligature_boundary.1 lexC5 "profi".toList "table".toList (by decide) (by decide)
      (by decide) (by decide) (by decide) (by decide)⟩

/-- Claim C6: two alphabetic fragments that are both Lexicon members, the
first not a standalone ligature fragment, are left unmerged:
`clean_broken_words "A B" = "A B"`. -/
theorem c6_real_word_pairs (lex : Lexicon) (a b : List Char)
    (ha : is_fragment a = true) (hb : is_fragment b = true)
    (hwa : is_word lex a = true) (hwb : is_word lex b = true)
    (hstand : is_ligature_fragment a = false) :
    clean_broken_words lex (a ++ ' ' :: b) = a ++ ' ' :: b := by
  have hlex : lex.words.isEmpty = false := by
    cases hl : lex.words.isEmpty
    · rfl
    · rw [is_word, List.isEmpty_iff.mp hl] at hwa
      simp at hwa
  rw [clean_broken_words_pair lex a b hlex ha hb]
  have hnone := try_pair_merge_real_words lex a b ha hb hwa hwb hstand
  simp [cleanTokens, hnone, joinSep]

theorem c6_real_word_pairs_witness :
    is_fragment "an".toList = true ∧ is_fragment "other".toList = true ∧
      is_word lexC6 "an".toList = true ∧ is_word lexC6 "other".toList = true ∧
      is_ligature_fragment "an".toList = false ∧
      clean_broken_words lexC6 ("an".toList ++ ' ' :: "other".toList) =
        "an".toList ++ ' ' :: "other".toList :=
  ⟨by decide, by decide, by decide, by decide, by decide,
    c6_real_word_pairs lexC6 "an".toList "other".toList (by decide) (by decide)
      (by decide) (by decide) (by decide)⟩

/-- Claim C7: the scanner gives the 3-token window strict priority: when
the punctuation constraints of the window hold and the general rule with
`max_short = 4` accepts the three cores, the scanner emits
`leading(i) ++ core(i) ++ core(i+1) ++ core(i+2) ++ trailing(i+2)` and
consumes all three tokens; consequently
`clean_broken_words "This is di ffi cult to read."` contains
`"difficult"` (with a non-empty Lexicon holding it). -/
theorem c7_triple_window :
    (∀ (lex : Lexicon) (tA tB tC : List Char) (rest : List (List Char))
        (preA coreA coreB preC coreC sufC : List Char),
        strip_punctuation tA = (preA, coreA, []) →
        strip_punctuation tB = ([], coreB, []) →
        strip_punctuation tC = (preC, coreC, sufC) → preC = [] →
        is_fragment coreA = true → is_fragment coreB = true →
        is_fragment coreC = true →
        should_merge lex [coreA, coreB, coreC] 4 = true →
        cleanTokens lex (tA :: tB :: tC :: rest) =
          (preA ++ (coreA ++ coreB ++ coreC) ++ sufC) :: cleanTokens lex rest) ∧
      List.IsInfix ("difficult".toList) (clean_broken_words lexC7 inputC7) :=
  ⟨fun lex tA tB tC rest preA coreA coreB preC coreC sufC hA hB hC hpc hfa hfb hfc hm =>
      cleanTokens_triple_step lex tA tB tC rest _
        (try_triple_merge_fires lex tA tB tC preA coreA coreB preC coreC sufC
          hA hB hC hpc hfa hfb hfc hm),
    by decide⟩

theorem c7_triple_window_witness :
    strip_punctuation "di".toList = ([], "di".toList, []) ∧
      strip_punctuation "ffi".toList = ([], "ffi".toList, []) ∧
      strip_punctuation "cult".toList = ([], "cult".toList, []) ∧
      is_fragment "di".toList = true ∧ is_fragment "ffi".toList = true ∧
      is_fragment "cult".toList = true ∧
      should_merge lexC7 ["di".toList, "ffi".toList, "cult".toList] 4 = true ∧
      cleanTokens lexC7 ["di".toList, "ffi".toList, "cult".toList] =
        ([] ++ ("di".toList ++ "ffi".toList ++ "cult".toList) ++ [])
          :: cleanTokens lexC7 [] :=
  ⟨by decide, by decide, by decide, by decide, by decide, by decide, by decide,
    c7_triple_window.1 lexC7 "di".toList "ffi".toList "cult".toList []
      [] "di".toList "ffi".toList [] "cult".toList []
      (by decide) (by decide) (by decide) rfl
      (by decide) (by decide) (by decide) (by decide)⟩

/-- Claim C8: ligature normalization is idempotent. -/
theorem c8_normalize_ligatures_idem (t : List Char) :
    normalize_ligatures (normalize_ligatures t) = normalize_ligatures t := by
  induction t with
  | nil => rfl
  | cons c cs ih =>
    rw [normalize_ligatures, normalize_ligatures_append, ih, normalize_expand_char]

/-- Claim C9: the line scanner only deletes inter-token spaces: after
removing all spaces, the output of `_clean_line` equals its input, for
every line and every Lexicon. -/
theorem c9_space_erasure_only (lex : Lexicon) (line : List Char) :
    removeSpaces (clean_line lex line) = removeSpaces line := by
  rw [clean_line, removeSpaces, removeSpaces]
  rw [filter_joinSep _ ' ' (by decide) (cleanTokens lex (splitOnChar ' ' line))]
  rw [cleanTokens_flatten lex (splitOnChar ' ' line)]
  conv_rhs => rw [← joinSep_splitOnChar ' ' line]
  rw [filter_joinSep _ ' ' (by decide) (splitOnChar ' ' line)]

/-- Claim C10: `clean_broken_words` preserves the newline count of its
input, for every text and every Lexicon. -/
theorem c10_newline_count (lex : Lexicon) (text : List Char) :
    (clean_broken_words lex text).count '\n' = text.count '\n' := by
  simp only [clean_broken_words]
  cases hl : lex.words.isEmpty
  · simp only [Bool.false_eq_true, if_false]
    have hpieces : ∀ p ∈ splitOnChar '\n' (normalize_ligatures text), '\n' ∉ p :=
      splitOnChar_pieces_no_sep '\n' (normalize_ligatures text)
    have hmap : ∀ q ∈ (splitOnChar '\n' (normalize_ligatures text)).map (clean_line lex),
        '\n' ∉ q := by
      intro q hq
      rcases List.mem_map.mp hq with ⟨p, hp, rfl⟩
      exact clean_line_no_newline lex p (hpieces p hp)
    rw [count_joinSep_sep '\n' _ hmap, List.length_map]
    have hcount : (normalize_ligatures text).count '\n'
        = (splitOnChar '\n' (normalize_ligatures text)).length - 1 := by
      conv_lhs => rw [← joinSep_splitOnChar '\n' (normalize_ligatures text)]
      rw [count_joinSep_sep '\n' _ hpieces]
    rw [← hcount, count_normalize_newline]
  · simp only [if_true]
    exact count_normalize_newline text

